import Mathlib

/-!
Shallow embedding of the genetic-algorithm core of `function.py`
(repository GAforSequencePrediction) and verification of its
specification claims.

Modelling conventions:
* keys and residues are encoded as natural numbers; alleles are integers
  (Python ints); scores are rationals (the external alignment scorer is an
  opaque function into ℚ).
* every call to the process-wide random generator is replaced by an
  explicit oracle argument: `random()` draws become rational arguments in
  `[0, 1)`, `sample(range(n), k)` becomes a list of positions constrained
  by the predicate `SampleOK`, `choice(range(N))` becomes an arbitrary
  natural reduced mod `N`, `choice([parent1, parent2])` becomes a Bool
  oracle, and `np.random.choice(range(n), size=k)` becomes a list of `k`
  indices below `n`.
* Python code that can raise (the premature-return `mutate_population`
  falling off the end, `sample` on an undersized population) is modelled
  with `Option`.
-/

namespace GA

/-- Python `dict` update: `d[k] = v` (later insertions overwrite). -/
def dictUpd (d : ℕ → Option ℤ) (k : ℕ) (v : ℤ) : ℕ → Option ℤ :=
  fun x => if x = k then some v else d x

/-- `dict(zip(keys, vals))` from `function.py` line 64: sequential insertion
of the zipped pairs into an empty dict, later pairs overwriting earlier
ones. -/
def dictZip (keys : List ℕ) (vals : List ℤ) : ℕ → Option ℤ :=
  (keys.zip vals).foldl (fun d kv => dictUpd d kv.1 kv.2) (fun _ => none)

/-- The allele `sel_frag[k]` that `compare_aa` and `term_count` read from
the dict built at lines 64 and 82 (default 0 stands for the KeyError case,
which is ruled out by the well-formedness hypotheses of the theorems). -/
def selFrag (keys : List ℕ) (individual : List ℤ) (k : ℕ) : ℤ :=
  (dictZip keys individual k).getD 0

/-- Python list slicing `l[a:b]` for `0 ≤ a ≤ b` (clamped at the length,
exactly as Python clamps). -/
def pySlice (l : List ℤ) (a b : ℕ) : List ℤ :=
  (l.drop a).take (b - a)

/-- Python 3 `round` on a rational: round half to even (banker's
rounding), otherwise to the nearest integer. -/
def pyRound (q : ℚ) : ℤ :=
  if Int.fract q = 1 / 2 then (if 2 ∣ ⌊q⌋ then ⌊q⌋ else ⌊q⌋ + 1) else round q

/-- Python `int()` applied to a rational: truncation toward zero. -/
def pyInt (q : ℚ) : ℤ :=
  if 0 ≤ q then ⌊q⌋ else -⌊-q⌋

/-- Validity of an outcome of Python `sample(range(n), k)`: `k` distinct
positions below `n`. -/
def SampleOK (positions : List ℕ) (n k : ℕ) : Prop :=
  positions.Nodup ∧ (∀ i ∈ positions, i < n) ∧ positions.length = k

instance SampleOK.decidable (positions : List ℕ) (n k : ℕ) :
    Decidable (SampleOK positions n k) :=
  inferInstanceAs (Decidable (_ ∧ _))

/-- `create_individual(keys, frags_count)` (`function.py` lines 38-42):
one allele per key, `round(random() * frags_count[i])`; the `random()`
draws are the oracle `r`, indexed by position in `keys`. -/
def create_individual (keys : List ℕ) (frags_count : ℕ → ℕ) (r : ℕ → ℚ) :
    List ℤ :=
  keys.enum.map (fun jk => pyRound (r jk.1 * (frags_count jk.2 : ℚ)))

/-- `initial_population(popSize, keys, frags_count)` (lines 47-51): one
`create_individual` row per index; `rs i` is the oracle for row `i`. -/
def initial_population (popSize : ℕ) (keys : List ℕ) (frags_count : ℕ → ℕ)
    (rs : ℕ → ℕ → ℚ) : List (List ℤ) :=
  (List.range popSize).map (fun i => create_individual keys frags_count (rs i))

/-- `compare_aa(individual, keys, frag, frags_count, G)` (lines 58-78).
`select` is the fragment library's `frag.select`, `score` the external
pairwise aligner `aligner.score`; `G` is the edge list, each edge carrying
its `sameAA` list of offset pairs.  For each edge whose two endpoint
alleles are active the scores of the residues at the recorded offsets are
accumulated. -/
def compare_aa (individual : List ℤ) (keys : List ℕ)
    (select : ℕ → ℤ → List ℕ) (score : ℕ → ℕ → ℚ) (frags_count : ℕ → ℕ)
    (G : List (ℕ × ℕ × List (ℕ × ℕ))) : ℚ :=
  (G.map (fun e =>
    if selFrag keys individual e.1 < (frags_count e.1 : ℤ) ∧
        selFrag keys individual e.2.1 < (frags_count e.2.1 : ℤ) then
      ((e.2.2).map (fun pos =>
        score ((select e.1 (selFrag keys individual e.1)).getD pos.1 0)
              ((select e.2.1 (selFrag keys individual e.2.1)).getD pos.2 0))).sum
    else 0)).sum

/-- `term_count(individual, keys, frags_count)` (lines 81-84): the number
of keys whose allele is active (`sel_frag[i] < frags_count[i]`). -/
def term_count (individual : List ℤ) (keys : List ℕ) (frags_count : ℕ → ℕ) :
    ℕ :=
  keys.countP (fun k => decide (selFrag keys individual k < (frags_count k : ℤ)))

/-- `energy(individual, keys, frag, frags_count, G)` (lines 86-87). -/
def energy (individual : List ℤ) (keys : List ℕ)
    (select : ℕ → ℤ → List ℕ) (score : ℕ → ℕ → ℚ) (frags_count : ℕ → ℕ)
    (G : List (ℕ × ℕ × List (ℕ × ℕ))) : ℚ :=
  compare_aa individual keys select score frags_count G
    - (term_count individual keys frags_count : ℚ)

/-- Fitness of the row at index `i` of the population, as computed in the
loop of `selection` (lines 94-95). -/
def fitness (population : List (List ℤ)) (keys : List ℕ)
    (select : ℕ → ℤ → List ℕ) (score : ℕ → ℕ → ℚ) (frags_count : ℕ → ℕ)
    (G : List (ℕ × ℕ × List (ℕ × ℕ))) (i : ℕ) : ℚ :=
  energy (population.getD i []) keys select score frags_count G

/-- The order by which `sorted(fitnessResults.items(), key=itemgetter(1),
reverse=True)` (line 97) arranges the indices: descending fitness and, by
stability of Python's sort over the insertion-ordered dict, ascending
original index on ties.  This relation is a linear order on indices, so
any sorted permutation of the index range coincides with the stable-sort
result. -/
def rankLE (f : ℕ → ℚ) (i j : ℕ) : Prop :=
  f j < f i ∨ (f i = f j ∧ i ≤ j)

instance rankLE.decidableRel (f : ℕ → ℚ) : DecidableRel (rankLE f) :=
  fun _ _ => inferInstanceAs (Decidable (_ ∨ _))

instance rankLE.isTotal (f : ℕ → ℚ) : IsTotal ℕ (rankLE f) where
  total i j := by
    rcases lt_trichotomy (f i) (f j) with h | h | h
    · exact Or.inr (Or.inl h)
    · rcases Nat.le_total i j with hij | hij
      · exact Or.inl (Or.inr ⟨h, hij⟩)
      · exact Or.inr (Or.inr ⟨h.symm, hij⟩)
    · exact Or.inl (Or.inl h)

instance rankLE.isTrans (f : ℕ → ℚ) : IsTrans ℕ (rankLE f) where
  trans i j k hij hjk := by
    rcases hij with h1 | ⟨h1, h1'⟩ <;> rcases hjk with h2 | ⟨h2, h2'⟩
    · exact Or.inl (h2.trans h1)
    · exact Or.inl (h2 ▸ h1)
    · exact Or.inl (h1 ▸ h2)
    · exact Or.inr ⟨h1.trans h2, h1'.trans h2'⟩

/-- Strict version of `rankLE`: `i` strictly precedes `j` in the sorted
order (higher fitness, or equal fitness and smaller original index). -/
def rankLT (f : ℕ → ℚ) (i j : ℕ) : Prop :=
  f j < f i ∨ (f i = f j ∧ i < j)

/-- The index order produced at line 97: the indices `0 .. n-1` sorted
stably by descending fitness. -/
def sortedIdx (population : List (List ℤ)) (keys : List ℕ)
    (select : ℕ → ℤ → List ℕ) (score : ℕ → ℕ → ℚ) (frags_count : ℕ → ℕ)
    (G : List (ℕ × ℕ × List (ℕ × ℕ))) : List ℕ :=
  List.insertionSort (rankLE (fitness population keys select score frags_count G))
    (List.range population.length)

/-- The elite index list of line 100:
`[i[0] for i in sortedResults[:eliteSize]]`. -/
def eliteIdx (population : List (List ℤ)) (eliteSize : ℕ) (keys : List ℕ)
    (select : ℕ → ℤ → List ℕ) (score : ℕ → ℕ → ℚ) (frags_count : ℕ → ℕ)
    (G : List (ℕ × ℕ × List (ℕ × ℕ))) : List ℕ :=
  (sortedIdx population keys select score frags_count G).take eliteSize

/-- `selection(population, eliteSize, frag, frags_count, G, keys)`
(lines 92-103): the rows of the top `eliteSize` sorted indices followed by
the rows of the `np.random.choice` sample `nonElites` (the oracle for
line 101); `np.append(..., axis=0)` is list append of the two row blocks. -/
def selection (population : List (List ℤ)) (eliteSize : ℕ) (keys : List ℕ)
    (select : ℕ → ℤ → List ℕ) (score : ℕ → ℕ → ℚ) (frags_count : ℕ → ℕ)
    (G : List (ℕ × ℕ × List (ℕ × ℕ))) (nonElites : List ℕ) :
    List (List ℤ) :=
  ((sortedIdx population keys select score frags_count G).take eliteSize).map
      (fun i => population.getD i [])
    ++ nonElites.map (fun i => population.getD i [])

/-- The loop of `crossover` (lines 113-116): for each consecutive pair of
cut points, copy the slice of the parent picked by the provider oracle
(`choice([parent1, parent2])`, segment index `i`). -/
def segments (p1 p2 : List ℤ) (prov : ℕ → Bool) : ℕ → List ℕ → List ℤ
  | _, [] => []
  | _, [_] => []
  | i, a :: b :: rest =>
      pySlice (if prov i then p1 else p2) a b
        ++ segments p1 p2 prov (i + 1) (b :: rest)

/-- `crossover(parent1, parent2, num_points)` (lines 109-118): the random
`sample(range(len(parent1)), num_points)` is the oracle `cuts`;
`set(points) | {0, len(parent1)}` followed by `points.sort()` is the
sorted deduplication; the segment loop is `segments`. -/
def crossover (p1 p2 : List ℤ) (cuts : List ℕ) (prov : ℕ → Bool) : List ℤ :=
  segments p1 p2 prov 0
    (List.insertionSort (· ≤ ·) (cuts ++ [0, p1.length]).dedup)

/-- Validity of an outcome of `sample(list(matingpool), 2)` (line 127),
by position: two distinct indices below the pool size. -/
def PairOK (n : ℕ) (pr : ℕ × ℕ) : Prop :=
  pr.1 ≠ pr.2 ∧ pr.1 < n ∧ pr.2 < n

instance PairOK.decidable (n : ℕ) (pr : ℕ × ℕ) : Decidable (PairOK n pr) :=
  inferInstanceAs (Decidable (_ ∧ _))

/-- `crossover_population(matingpool, num_points)` (lines 124-129).  With
an empty pool the loop body never runs and the empty `children` array is
returned; with exactly one row the first `sample(list(matingpool), 2)`
raises (`none`); otherwise each child `i` is the crossover of the two
pool rows at the sampled index pair `pairs i`. -/
def crossover_population (matingpool : List (List ℤ)) (pairs : ℕ → ℕ × ℕ)
    (cutsOr : ℕ → List ℕ) (provOr : ℕ → ℕ → Bool) :
    Option (List (List ℤ)) :=
  if matingpool.length = 1 then none
  else some ((List.range matingpool.length).map (fun i =>
    crossover (matingpool.getD (pairs i).1 []) (matingpool.getD (pairs i).2 [])
      (cutsOr i) (provOr i)))

/-- The number of positions `mutate` draws, line 135:
`int(mutationRate * len(individual))`. -/
def mutationNumber (mutationRate : ℚ) (n : ℕ) : ℤ :=
  pyInt (mutationRate * (n : ℚ))

/-- Validity of the `sample(range(len(individual)), mutationNumber)` draw
of `mutate` (line 136) for a given rate. -/
def MutOracleOK (mutationRate : ℚ) (n : ℕ) (positions : List ℕ) : Prop :=
  positions.Nodup ∧ (∀ i ∈ positions, i < n) ∧
    (positions.length : ℤ) = mutationNumber mutationRate n

instance MutOracleOK.decidable (mutationRate : ℚ) (n : ℕ) (positions : List ℕ) :
    Decidable (MutOracleOK mutationRate n positions) :=
  inferInstanceAs (Decidable (_ ∧ _))

/-- `mutate(individual, mutationRate, frags_count, keys)` (lines 134-139):
each sampled position `i` is overwritten with
`choice(range(frags_count[keys[i]]))`, modelled as `c i` reduced mod the
range size (`choice` on an empty range would raise; theorems assume the
count is positive). -/
def mutate (individual : List ℤ) (positions : List ℕ) (c : ℕ → ℕ)
    (frags_count : ℕ → ℕ) (keys : List ℕ) : List ℤ :=
  positions.foldl
    (fun ind i => ind.set i ((c i % frags_count (keys.getD i 0) : ℕ) : ℤ))
    individual

/-- `mutate_population(population, mutationRate, frags_count, keys)`
(lines 144-148): the `return` sits inside the `for` loop, so only the
first row is mutated and the loop exits; with an empty population the loop
body never runs and the function falls off the end, returning `None`. -/
def mutate_population (population : List (List ℤ)) (positions : List ℕ)
    (c : ℕ → ℕ) (frags_count : ℕ → ℕ) (keys : List ℕ) :
    Option (List (List ℤ)) :=
  match population with
  | [] => none
  | p :: rest => some (mutate p positions c frags_count keys :: rest)

/-- `next_generation(...)` (lines 151-155): selection, then crossover of
the mating pool, then (buggy) population mutation, exceptions
propagating. -/
def next_generation (population : List (List ℤ)) (eliteSize : ℕ)
    (keys : List ℕ) (select : ℕ → ℤ → List ℕ) (score : ℕ → ℕ → ℚ)
    (frags_count : ℕ → ℕ) (G : List (ℕ × ℕ × List (ℕ × ℕ)))
    (nonElites : List ℕ) (pairs : ℕ → ℕ × ℕ) (cutsOr : ℕ → List ℕ)
    (provOr : ℕ → ℕ → Bool) (mutPositions : List ℕ) (c : ℕ → ℕ) :
    Option (List (List ℤ)) :=
  match crossover_population
      (selection population eliteSize keys select score frags_count G nonElites)
      pairs cutsOr provOr with
  | none => none
  | some children => mutate_population children mutPositions c frags_count keys

/-- Spec-side allele of a key: the individual's entry at the key's
position in the key list. -/
def alleleSpec (individual : List ℤ) (keys : List ℕ) (k : ℕ) : ℤ :=
  individual.getD (keys.indexOf k) 0

/-- Spec-side active count: the number of positions whose allele is
strictly below the position's fragment count. -/
def activeCountSpec (individual : List ℤ) (keys : List ℕ)
    (frags_count : ℕ → ℕ) : ℕ :=
  ((List.range keys.length).filter (fun j =>
    decide (individual.getD j 0 < (frags_count (keys.getD j 0) : ℤ)))).length

/-- Spec-side energy, following the specification's words: the sum, over
graph edges whose both endpoints are active and over each edge's recorded
aligned-offset pairs, of the external scorer's pairwise score of the two
residues at those offsets, minus the number of keys whose allele is
active. -/
def energySpec (individual : List ℤ) (keys : List ℕ)
    (select : ℕ → ℤ → List ℕ) (score : ℕ → ℕ → ℚ) (frags_count : ℕ → ℕ)
    (G : List (ℕ × ℕ × List (ℕ × ℕ))) : ℚ :=
  (G.map (fun e =>
    if alleleSpec individual keys e.1 < (frags_count e.1 : ℤ) ∧
        alleleSpec individual keys e.2.1 < (frags_count e.2.1 : ℤ) then
      ((e.2.2).map (fun pos =>
        score ((select e.1 (alleleSpec individual keys e.1)).getD pos.1 0)
              ((select e.2.1 (alleleSpec individual keys e.2.1)).getD pos.2 0))).sum
    else 0)).sum
    - (activeCountSpec individual keys frags_count : ℚ)

/-! ### Helper lemmas -/

theorem pySlice_append (p : List ℤ) (a b c : ℕ) (hab : a ≤ b) (hbc : b ≤ c) :
    pySlice p a b ++ pySlice p b c = pySlice p a c := by
  unfold pySlice
  rw [show c - a = (b - a) + (c - b) by omega, List.take_add]
  congr 1
  rw [List.drop_drop, show a + (b - a) = b by omega]

theorem getLastD_mem (l : List ℕ) (a : ℕ) : l.getLastD a ∈ a :: l := by
  induction l generalizing a with
  | nil => simp
  | cons b t ih =>
      rw [List.getLastD_cons]
      rcases List.mem_cons.mp (ih b) with h | h
      · rw [h]; simp
      · exact List.mem_cons_of_mem a (List.mem_cons_of_mem b h)

theorem sorted_le_getLastD (rest : List ℕ) (b : ℕ)
    (hs : List.Pairwise (· ≤ ·) (b :: rest)) :
    ∀ x ∈ b :: rest, x ≤ rest.getLastD b := by
  induction rest generalizing b with
  | nil => intro x hx; simp at hx; simp [hx]
  | cons c t ih =>
      intro x hx
      rw [List.getLastD_cons]
      have hbc : b ≤ c := (List.pairwise_cons.mp hs).1 c (by simp)
      have hs' : List.Pairwise (· ≤ ·) (c :: t) := (List.pairwise_cons.mp hs).2
      rcases List.mem_cons.mp hx with rfl | h
      · exact le_trans hbc (ih c hs' c (by simp))
      · exact ih c hs' x h

theorem segments_self (rest : List ℕ) (a i : ℕ) (p : List ℤ) (prov : ℕ → Bool)
    (hs : List.Pairwise (· ≤ ·) (a :: rest)) :
    segments p p prov i (a :: rest) = pySlice p a (rest.getLastD a) := by
  induction rest generalizing a i with
  | nil => simp [segments, pySlice]
  | cons b t ih =>
      have hab : a ≤ b := (List.pairwise_cons.mp hs).1 b (by simp)
      have hs' : List.Pairwise (· ≤ ·) (b :: t) := (List.pairwise_cons.mp hs).2
      have hbl : b ≤ t.getLastD b := sorted_le_getLastD t b hs' b (by simp)
      calc segments p p prov i (a :: b :: t)
          = pySlice p a b ++ segments p p prov (i + 1) (b :: t) := by
            simp [segments]
        _ = pySlice p a b ++ pySlice p b (t.getLastD b) := by rw [ih b (i + 1) hs']
        _ = pySlice p a (t.getLastD b) := pySlice_append p a b _ hab hbl
        _ = pySlice p a ((b :: t).getLastD a) := by rw [List.getLastD_cons]

theorem segments_length (rest : List ℕ) (a i : ℕ) (p1 p2 : List ℤ)
    (prov : ℕ → Bool) (hlen : p1.length = p2.length)
    (hs : List.Pairwise (· ≤ ·) (a :: rest))
    (hub : ∀ x ∈ a :: rest, x ≤ p1.length) :
    (segments p1 p2 prov i (a :: rest)).length = rest.getLastD a - a := by
  induction rest generalizing a i with
  | nil => simp [segments]
  | cons b t ih =>
      have hab : a ≤ b := (List.pairwise_cons.mp hs).1 b (by simp)
      have hs' : List.Pairwise (· ≤ ·) (b :: t) := (List.pairwise_cons.mp hs).2
      have hbl : b ≤ t.getLastD b := sorted_le_getLastD t b hs' b (by simp)
      have hbp : b ≤ p1.length := hub b (by simp)
      have hslice : (pySlice (if prov i then p1 else p2) a b).length = b - a := by
        have hq : (if prov i then p1 else p2).length = p1.length := by
          split <;> simp [hlen]
        simp only [pySlice, List.length_take, List.length_drop, hq]
        omega
      have hrest : (segments p1 p2 prov (i + 1) (b :: t)).length
          = t.getLastD b - b :=
        ih b (i + 1) hs' (fun x hx => hub x (List.mem_cons_of_mem a hx))
      calc (segments p1 p2 prov i (a :: b :: t)).length
          = (pySlice (if prov i then p1 else p2) a b).length
              + (segments p1 p2 prov (i + 1) (b :: t)).length := by
            simp [segments]
        _ = (b - a) + (t.getLastD b - b) := by rw [hslice, hrest]
        _ = t.getLastD b - a := by omega
        _ = (b :: t).getLastD a - a := by rw [List.getLastD_cons]

theorem foldl_set_getD_not_mem (positions : List ℕ) (l : List ℤ) (f : ℕ → ℤ)
    (i : ℕ) (h : i ∉ positions) :
    (positions.foldl (fun acc j => acc.set j (f j)) l).getD i 0 = l.getD i 0 := by
  induction positions generalizing l with
  | nil => rfl
  | cons j rest ih =>
      simp only [List.mem_cons, not_or] at h
      rw [List.foldl_cons, ih (l.set j (f j)) h.2]
      rw [List.getD_eq_getElem?_getD, List.getD_eq_getElem?_getD,
        List.getElem?_set_ne (Ne.symm h.1)]

theorem foldl_set_getD_mem (positions : List ℕ) (l : List ℤ) (f : ℕ → ℤ)
    (i : ℕ) (hnd : positions.Nodup) (hmem : i ∈ positions) (hi : i < l.length) :
    (positions.foldl (fun acc j => acc.set j (f j)) l).getD i 0 = f i := by
  induction positions generalizing l with
  | nil => simp at hmem
  | cons j rest ih =>
      rw [List.foldl_cons]
      rcases List.mem_cons.mp hmem with rfl | hmem'
      · have hj : i ∉ rest := (List.nodup_cons.mp hnd).1
        rw [foldl_set_getD_not_mem rest _ f i hj]
        rw [List.getD_eq_getElem?_getD, List.getElem?_set_self hi]
        rfl
      · exact ih (l.set j (f j)) (List.nodup_cons.mp hnd).2 hmem'
          (by rw [List.length_set]; exact hi)

/-! ### C2: premature return in `mutate_population` -/

/-- C2: the specified contract of `mutate_population` is to apply `mutate`
to every row; the code returns from inside its loop, so only the first row
is ever mutated.  At the population `[[1, 1], [1, 1]]` with one fragment
per key (`N_key = 1` for keys `0, 1`) and mutation rate `1`, the valid
sample `[0, 1]` covers both positions and `choice(range(1))` can only
produce `0`: the contract demands that every row become `[0, 0]`, as
`mutate` on the second row shows, yet the code leaves the second row at
`[1, 1]`. -/
theorem C2_mutate_population_premature_return :
    mutate_population [[1, 1], [1, 1]] [0, 1] (fun _ => 0) (fun _ => 1) [0, 1]
        = some [[0, 0], [1, 1]]
    ∧ MutOracleOK 1 2 [0, 1]
    ∧ mutate [1, 1] [0, 1] (fun _ => 0) (fun _ => 1) [0, 1] = [0, 0]
    ∧ ([1, 1] : List ℤ) ≠ [0, 0] := by
  refine ⟨rfl, ⟨by decide, by decide, ?_⟩, rfl, by decide⟩
  show (2 : ℤ) = mutationNumber 1 2
  have : mutationNumber 1 2 = pyInt 2 := by norm_num [mutationNumber]
  rw [this, pyInt, if_pos (by norm_num)]
  norm_num

/-! ### C8: zero mutation rate -/

/-- C8 counterexample to the universally quantified claim: on the empty
population `mutate_population` falls off the end of its loop and returns
`None` even at mutation rate `0` (the empty position list is the unique
valid rate-`0` sample), rather than a population equal to its input. -/
theorem C8_counterexample :
    mutate_population [] [] (fun _ => 0) (fun _ => 1) [] = none
    ∧ mutate_population [] [] (fun _ => 0) (fun _ => 1) [] ≠ some []
    ∧ MutOracleOK 0 0 [] := by
  refine ⟨rfl, by simp [mutate_population], by decide, by decide, ?_⟩
  show ((0 : ℤ) = mutationNumber 0 0)
  simp [mutationNumber, pyInt]

/-- C8 (amended to non-empty populations): with mutation rate `0` the
sampled position list is empty, so `mutate` is the identity on the first
row and `mutate_population` returns a population equal in value to its
input. -/
theorem C8_mutate_population_rate_zero (p : List ℤ) (rest : List (List ℤ))
    (positions : List ℕ) (c : ℕ → ℕ) (frags_count : ℕ → ℕ) (keys : List ℕ)
    (h : MutOracleOK 0 p.length positions) :
    mutate_population (p :: rest) positions c frags_count keys
      = some (p :: rest) := by
  have hnum : mutationNumber 0 p.length = 0 := by
    simp [mutationNumber, pyInt]
  have hlen : positions.length = 0 := by
    have h2 := h.2.2
    rw [hnum] at h2
    exact_mod_cast h2
  have hnil : positions = [] := List.length_eq_zero.mp hlen
  subst hnil
  rfl

/-- C8 witness. -/
theorem C8_witness :
    MutOracleOK 0 2 []
    ∧ mutate_population [[3, 4], [5, 6]] [] (fun _ => 0) (fun _ => 2) [0, 1]
        = some [[3, 4], [5, 6]] := by
  have hok : MutOracleOK 0 2 [] := by
    refine ⟨by decide, by decide, ?_⟩
    show ((0 : ℤ) = mutationNumber 0 2)
    simp [mutationNumber, pyInt]
  exact ⟨hok, C8_mutate_population_rate_zero [3, 4] [[5, 6]] [] _ _ _ hok⟩

/-! ### C9: parent pairs in `crossover_population` -/

/-- C9 counterexample to the "fewer than two rows fails" part of the
claim: on an empty mating pool the loop body of `crossover_population`
never runs, so the empty `children` array is returned successfully instead
of failing. -/
theorem C9_counterexample :
    crossover_population [] (fun _ => (0, 1)) (fun _ => []) (fun _ _ => true)
        = some []
    ∧ crossover_population [] (fun _ => (0, 1)) (fun _ => []) (fun _ _ => true)
        ≠ none := by
  exact ⟨rfl, by simp [crossover_population]⟩

/-- C9 (amended): with at least two rows every child is the crossover of
the two pool rows at the sampled pair of indices, and `sample` without
replacement makes the two indices distinct, so no row is crossed with
itself by index; with exactly one row the first `sample(list(matingpool),
2)` raises. -/
theorem C9_crossover_population_pairs (pool : List (List ℤ))
    (pairs : ℕ → ℕ × ℕ) (cutsOr : ℕ → List ℕ) (provOr : ℕ → ℕ → Bool)
    (hp : ∀ i < pool.length, PairOK pool.length (pairs i)) :
    (2 ≤ pool.length →
      crossover_population pool pairs cutsOr provOr
          = some ((List.range pool.length).map (fun i =>
              crossover (pool.getD (pairs i).1 []) (pool.getD (pairs i).2 [])
                (cutsOr i) (provOr i)))
        ∧ ∀ i < pool.length, (pairs i).1 ≠ (pairs i).2
            ∧ (pairs i).1 < pool.length ∧ (pairs i).2 < pool.length)
    ∧ (pool.length = 1 → crossover_population pool pairs cutsOr provOr = none) := by
  constructor
  · intro h2
    constructor
    · rw [crossover_population, if_neg (by omega)]
    · intro i hi
      exact ⟨(hp i hi).1, (hp i hi).2.1, (hp i hi).2.2⟩
  · intro h1
    rw [crossover_population, if_pos h1]

/-- C9 witness. -/
theorem C9_witness :
    (∀ i < 2, PairOK 2 ((fun _ => (0, 1)) i))
    ∧ ((2 ≤ ([[1], [2]] : List (List ℤ)).length →
        crossover_population [[1], [2]] (fun _ => (0, 1)) (fun _ => [])
            (fun _ _ => true)
            = some ((List.range ([[1], [2]] : List (List ℤ)).length).map (fun i =>
                crossover (([[1], [2]] : List (List ℤ)).getD ((fun _ => ((0 : ℕ), (1 : ℕ))) i).1 [])
                  (([[1], [2]] : List (List ℤ)).getD ((fun _ => ((0 : ℕ), (1 : ℕ))) i).2 [])
                  ((fun _ => ([] : List ℕ)) i) ((fun _ _ => true) i)))
          ∧ ∀ i < ([[1], [2]] : List (List ℤ)).length,
              ((fun _ => ((0 : ℕ), (1 : ℕ))) i).1 ≠ ((fun _ => ((0 : ℕ), (1 : ℕ))) i).2
              ∧ ((fun _ => ((0 : ℕ), (1 : ℕ))) i).1 < ([[1], [2]] : List (List ℤ)).length
              ∧ ((fun _ => ((0 : ℕ), (1 : ℕ))) i).2 < ([[1], [2]] : List (List ℤ)).length)
      ∧ (([[1], [2]] : List (List ℤ)).length = 1 →
          crossover_population [[1], [2]] (fun _ => (0, 1)) (fun _ => [])
            (fun _ _ => true) = none)) :=
  ⟨by decide, C9_crossover_population_pairs [[1], [2]] (fun _ => (0, 1))
    (fun _ => []) (fun _ _ => true) (by decide)⟩

/-! ### C10: empty population and `eliteSize = 0` -/

/-- C10: on the empty population `mutate_population` returns `None`
instead of an empty population, and consequently `next_generation` with
`eliteSize = 0` (whose selection stage produces an empty mating pool and
whose crossover stage therefore produces an empty children array) returns
`None`: no next population is produced. -/
theorem C10_next_generation_none (population : List (List ℤ)) (keys : List ℕ)
    (select : ℕ → ℤ → List ℕ) (score : ℕ → ℕ → ℚ) (frags_count : ℕ → ℕ)
    (G : List (ℕ × ℕ × List (ℕ × ℕ))) (nonElites : List ℕ)
    (pairs : ℕ → ℕ × ℕ) (cutsOr : ℕ → List ℕ) (provOr : ℕ → ℕ → Bool)
    (mutPositions : List ℕ) (c : ℕ → ℕ)
    (positions' : List ℕ) (c' : ℕ → ℕ) (fc' : ℕ → ℕ) (keys' : List ℕ)
    (h : nonElites.length = 0) :
    mutate_population [] positions' c' fc' keys' = none
    ∧ next_generation population 0 keys select score frags_count G nonElites
        pairs cutsOr provOr mutPositions c = none := by
  constructor
  · rfl
  · have hnil : nonElites = [] := List.length_eq_zero.mp h
    subst hnil
    simp [next_generation, selection, crossover_population, mutate_population]

/-- C10 witness. -/
theorem C10_witness :
    ([] : List ℕ).length = 0
    ∧ (mutate_population [] [] (fun _ => 0) (fun _ => 1) [] = none
      ∧ next_generation [[7]] 0 [0] (fun _ _ => []) (fun _ _ => 0)
          (fun _ => 1) [] [] (fun _ => (0, 1)) (fun _ => []) (fun _ _ => true)
          [] (fun _ => 0) = none) :=
  ⟨rfl, C10_next_generation_none [[7]] [0] (fun _ _ => []) (fun _ _ => 0)
    (fun _ => 1) [] [] (fun _ => (0, 1)) (fun _ => []) (fun _ _ => true)
    [] (fun _ => 0) [] (fun _ => 0) (fun _ => 1) [] rfl⟩

/-! ### C4: `eliteSize` larger than the population -/

/-- C4 counterexample: with a one-row population and `eliteSize = 2`
(and a possible outcome `[0, 0]` of the size-2 `np.random.choice` draw),
`selection` returns normally with a 3-row mating pool — undersized, since
`2 * eliteSize = 4` — instead of failing fast. -/
theorem C4_counterexample :
    (selection [[0]] 2 [0] (fun _ _ => []) (fun _ _ => 0) (fun _ => 0) []
        [0, 0]).length = 3
    ∧ (selection [[0]] 2 [0] (fun _ _ => []) (fun _ _ => 0) (fun _ => 0) []
        [0, 0]).length ≠ 2 * 2 := by
  have h : (selection [[0]] 2 [0] (fun _ _ => []) (fun _ _ => 0) (fun _ => 0)
      [] [0, 0]).length = 3 := rfl
  exact ⟨h, by rw [h]; decide⟩

/-- C4 (amended): when `eliteSize` exceeds the (non-empty) population
size, `selection` does not fail: the slice `sortedResults[:eliteSize]`
clamps to the population size while the random block keeps `eliteSize`
rows, so an undersized mating pool of `popSize + eliteSize < 2 *
eliteSize` rows is returned to the caller. -/
theorem C4_selection_undersized (population : List (List ℤ)) (eliteSize : ℕ)
    (keys : List ℕ) (select : ℕ → ℤ → List ℕ) (score : ℕ → ℕ → ℚ)
    (frags_count : ℕ → ℕ) (G : List (ℕ × ℕ × List (ℕ × ℕ)))
    (nonElites : List ℕ)
    (h1 : 1 ≤ population.length) (h2 : population.length < eliteSize)
    (h3 : nonElites.length = eliteSize) :
    (selection population eliteSize keys select score frags_count G
        nonElites).length = population.length + eliteSize
    ∧ (selection population eliteSize keys select score frags_count G
        nonElites).length < 2 * eliteSize := by
  have hlen : (sortedIdx population keys select score frags_count G).length
      = population.length :=
    (List.perm_insertionSort _ _).length_eq.trans (List.length_range _)
  have hsel : (selection population eliteSize keys select score frags_count G
      nonElites).length = min eliteSize population.length + nonElites.length := by
    simp [selection, hlen]
  rw [hsel, h3]
  omega

/-- C4 witness for the amended theorem. -/
theorem C4_witness :
    (1 ≤ ([[0], [1]] : List (List ℤ)).length
      ∧ ([[0], [1]] : List (List ℤ)).length < 3 ∧ ([4, 5, 6] : List ℕ).length = 3)
    ∧ (selection [[0], [1]] 3 [0] (fun _ _ => []) (fun _ _ => 0) (fun _ => 0)
        [] [4, 5, 6]).length = ([[0], [1]] : List (List ℤ)).length + 3
    ∧ (selection [[0], [1]] 3 [0] (fun _ _ => []) (fun _ _ => 0) (fun _ => 0)
        [] [4, 5, 6]).length < 2 * 3 :=
  ⟨by decide, C4_selection_undersized [[0], [1]] 3 [0] (fun _ _ => [])
    (fun _ _ => 0) (fun _ => 0) [] [4, 5, 6] (by decide) (by decide) (by decide)⟩

/-! ### C6 and C7: crossover -/

/-- C6: with two identical parents, every segment of the child is copied
from the same list `p`, and the sorted cut set starts at `0` and reaches
`len(p)`, so the concatenated slices reassemble exactly `p`, whatever the
cut sample and the per-segment parent choices are. -/
theorem C6_crossover_identical_parents (p : List ℤ) (cuts : List ℕ)
    (prov : ℕ → Bool) (hs : SampleOK cuts p.length cuts.length)
    (hk : cuts.length < p.length) :
    crossover p p cuts prov = p := by
  unfold crossover
  set pts := List.insertionSort (· ≤ ·) (cuts ++ [0, p.length]).dedup with hpts
  have hperm := List.perm_insertionSort (· ≤ ·) (cuts ++ [0, p.length]).dedup
  have hsorted : List.Pairwise (· ≤ ·) pts :=
    List.sorted_insertionSort (· ≤ ·) ((cuts ++ [0, p.length]).dedup)
  have h0 : (0 : ℕ) ∈ pts := by
    rw [hpts]
    exact hperm.mem_iff.mpr (List.mem_dedup.mpr (by simp))
  have hL : p.length ∈ pts := by
    rw [hpts]
    exact hperm.mem_iff.mpr (List.mem_dedup.mpr (by simp))
  obtain ⟨a, rest, hcons⟩ : ∃ a rest, pts = a :: rest := by
    cases hc : pts with
    | nil => rw [hc] at h0; simp at h0
    | cons a rest => exact ⟨a, rest, rfl⟩
  rw [hcons] at hsorted h0 hL ⊢
  have ha : a = 0 := by
    rcases List.mem_cons.mp h0 with h | h
    · omega
    · have := (List.pairwise_cons.mp hsorted).1 0 h
      omega
  subst ha
  rw [segments_self rest 0 0 p prov hsorted]
  have hub : p.length ≤ rest.getLastD 0 :=
    sorted_le_getLastD rest 0 hsorted p.length hL
  unfold pySlice
  rw [List.drop_zero, Nat.sub_zero, List.take_of_length_le hub]

/-- C6 witness. -/
theorem C6_witness :
    (SampleOK [1] 3 1 ∧ 1 < 3)
    ∧ crossover [5, 7, 9] [5, 7, 9] [1] (fun _ => false) = [5, 7, 9] :=
  ⟨by decide,
    C6_crossover_identical_parents [5, 7, 9] [1] (fun _ => false)
      (by decide) (by decide)⟩

/-- C7: for equal-length parents and any valid cut sample, every slice of
the child lies inside the parents, and the slice lengths telescope from
cut `0` to cut `len(p1)`, so the child's length equals the parents'
length for every outcome of the random choices. -/
theorem C7_crossover_length (p1 p2 : List ℤ) (cuts : List ℕ)
    (prov : ℕ → Bool) (hlen : p1.length = p2.length)
    (hs : SampleOK cuts p1.length cuts.length)
    (hk : cuts.length < p1.length) :
    (crossover p1 p2 cuts prov).length = p1.length := by
  unfold crossover
  set pts := List.insertionSort (· ≤ ·) (cuts ++ [0, p1.length]).dedup with hpts
  have hperm := List.perm_insertionSort (· ≤ ·) (cuts ++ [0, p1.length]).dedup
  have hsorted : List.Pairwise (· ≤ ·) pts :=
    List.sorted_insertionSort (· ≤ ·) ((cuts ++ [0, p1.length]).dedup)
  have hmemiff : ∀ x : ℕ, x ∈ pts ↔ x ∈ cuts ++ [0, p1.length] := by
    intro x
    rw [hpts]
    exact hperm.mem_iff.trans List.mem_dedup
  have h0 : (0 : ℕ) ∈ pts := (hmemiff 0).mpr (by simp)
  have hL : p1.length ∈ pts := (hmemiff _).mpr (by simp)
  have hub : ∀ x ∈ pts, x ≤ p1.length := by
    intro x hx
    rcases List.mem_append.mp ((hmemiff x).mp hx) with h | h
    · exact le_of_lt (hs.2.1 x h)
    · simp at h
      omega
  obtain ⟨a, rest, hcons⟩ : ∃ a rest, pts = a :: rest := by
    cases hc : pts with
    | nil => rw [hc] at h0; simp at h0
    | cons a rest => exact ⟨a, rest, rfl⟩
  rw [hcons] at hsorted h0 hL hub ⊢
  have ha : a = 0 := by
    rcases List.mem_cons.mp h0 with h | h
    · omega
    · have := (List.pairwise_cons.mp hsorted).1 0 h
      omega
  subst ha
  rw [segments_length rest 0 0 p1 p2 prov hlen hsorted hub]
  have h1 : rest.getLastD 0 ≤ p1.length := hub _ (getLastD_mem rest 0)
  have h2 : p1.length ≤ rest.getLastD 0 :=
    sorted_le_getLastD rest 0 hsorted p1.length hL
  omega

/-- C7 witness. -/
theorem C7_witness :
    (([5, 7, 9] : List ℤ).length = ([2, 4, 6] : List ℤ).length
      ∧ SampleOK [1] 3 1 ∧ 1 < 3)
    ∧ (crossover [5, 7, 9] [2, 4, 6] [1] (fun i => i % 2 == 0)).length = 3 :=
  ⟨by decide,
    C7_crossover_length [5, 7, 9] [2, 4, 6] [1] (fun i => i % 2 == 0)
      (by decide) (by decide) (by decide)⟩

/-! ### C3: selection -/

/-- C3: with `eliteSize ≤ popSize` and a valid size-`eliteSize` random
index sample, the mating pool has exactly `2 * eliteSize` rows; its first
block is the rows of the elite indices — `eliteSize` distinct original
indices, arranged by descending fitness with ties broken by ascending
original index, every elite's fitness at least every non-elite's — copied
unmodified, and its second block is the rows of the with-replacement
sample from the original, unsorted population. -/
theorem C3_selection_mating_pool (population : List (List ℤ))
    (eliteSize : ℕ) (keys : List ℕ) (select : ℕ → ℤ → List ℕ)
    (score : ℕ → ℕ → ℚ) (frags_count : ℕ → ℕ)
    (G : List (ℕ × ℕ × List (ℕ × ℕ))) (nonElites : List ℕ)
    (he : eliteSize ≤ population.length)
    (h1 : nonElites.length = eliteSize)
    (h2 : ∀ i ∈ nonElites, i < population.length) :
    (selection population eliteSize keys select score frags_count G
        nonElites).length = 2 * eliteSize
    ∧ selection population eliteSize keys select score frags_count G nonElites
        = (eliteIdx population eliteSize keys select score frags_count G).map
            (fun i => population.getD i [])
          ++ nonElites.map (fun i => population.getD i [])
    ∧ (eliteIdx population eliteSize keys select score frags_count G).length
        = eliteSize
    ∧ (eliteIdx population eliteSize keys select score frags_count G).Nodup
    ∧ (∀ i ∈ eliteIdx population eliteSize keys select score frags_count G,
        i < population.length)
    ∧ List.Pairwise (rankLT (fitness population keys select score frags_count G))
        (eliteIdx population eliteSize keys select score frags_count G)
    ∧ (∀ i ∈ eliteIdx population eliteSize keys select score frags_count G,
        ∀ j < population.length,
          j ∉ eliteIdx population eliteSize keys select score frags_count G →
          fitness population keys select score frags_count G j
            ≤ fitness population keys select score frags_count G i) := by
  have hperm :
      (sortedIdx population keys select score frags_count G).Perm
        (List.range population.length) :=
    List.perm_insertionSort _ _
  have hlen : (sortedIdx population keys select score frags_count G).length
      = population.length :=
    hperm.length_eq.trans (List.length_range _)
  have hnodup : (sortedIdx population keys select score frags_count G).Nodup :=
    hperm.nodup_iff.mpr (List.nodup_range _)
  have hsorted :
      List.Pairwise (rankLE (fitness population keys select score frags_count G))
        (sortedIdx population keys select score frags_count G) :=
    List.sorted_insertionSort _ _
  have hmemiff :
      ∀ x, x ∈ sortedIdx population keys select score frags_count G
        ↔ x < population.length :=
    fun x => hperm.mem_iff.trans List.mem_range
  have hE_sub :
      (eliteIdx population eliteSize keys select score frags_count G).Sublist
        (sortedIdx population keys select score frags_count G) :=
    List.take_sublist _ _
  have hE_len : (eliteIdx population eliteSize keys select score frags_count
      G).length = eliteSize := by
    rw [eliteIdx, List.length_take, hlen]
    omega
  have hE_nd : (eliteIdx population eliteSize keys select score frags_count
      G).Nodup :=
    List.Nodup.sublist hE_sub hnodup
  have hE_mem : ∀ i ∈ eliteIdx population eliteSize keys select score
      frags_count G, i < population.length :=
    fun i hi => (hmemiff i).mp (hE_sub.subset hi)
  have hE_rank :
      List.Pairwise (rankLE (fitness population keys select score frags_count G))
        (eliteIdx population eliteSize keys select score frags_count G) :=
    List.Pairwise.sublist hE_sub hsorted
  have hE_lt :
      List.Pairwise (rankLT (fitness population keys select score frags_count G))
        (eliteIdx population eliteSize keys select score frags_count G) := by
    refine (hE_rank.and hE_nd).imp ?_
    rintro a b ⟨hab, hne⟩
    rcases hab with h | ⟨heq, hle⟩
    · exact Or.inl h
    · exact Or.inr ⟨heq, lt_of_le_of_ne hle hne⟩
  refine ⟨?_, rfl, hE_len, hE_nd, hE_mem, hE_lt, ?_⟩
  · simp only [selection, List.length_append, List.length_map, List.length_take,
      hlen, h1]
    omega
  · intro i hi j hj hjE
    have hj_sorted : j ∈ sortedIdx population keys select score frags_count G :=
      (hmemiff j).mpr hj
    have hsplit :
        List.Pairwise (rankLE (fitness population keys select score frags_count G))
          ((sortedIdx population keys select score frags_count G).take eliteSize
            ++ (sortedIdx population keys select score frags_count G).drop
              eliteSize) := by
      rw [List.take_append_drop]
      exact hsorted
    have hj_drop : j ∈ (sortedIdx population keys select score frags_count
        G).drop eliteSize := by
      have := (List.take_append_drop eliteSize
        (sortedIdx population keys select score frags_count G)).symm
      rw [this] at hj_sorted
      rcases List.mem_append.mp hj_sorted with h | h
      · exact absurd h hjE
      · exact h
    have hrel := (List.pairwise_append.mp hsplit).2.2 i hi j hj_drop
    rcases hrel with h | ⟨heq, _⟩
    · exact le_of_lt h
    · exact le_of_eq heq.symm

/-- C3 witness. -/
theorem C3_witness :
    (1 ≤ ([[0], [1]] : List (List ℤ)).length ∧ ([0] : List ℕ).length = 1
      ∧ ∀ i ∈ ([0] : List ℕ), i < ([[0], [1]] : List (List ℤ)).length)
    ∧ ((selection [[0], [1]] 1 [0] (fun _ _ => []) (fun _ _ => 0) (fun _ => 1)
          [] [0]).length = 2 * 1
      ∧ selection [[0], [1]] 1 [0] (fun _ _ => []) (fun _ _ => 0) (fun _ => 1)
            [] [0]
          = (eliteIdx [[0], [1]] 1 [0] (fun _ _ => []) (fun _ _ => 0)
              (fun _ => 1) []).map
              (fun i => ([[0], [1]] : List (List ℤ)).getD i [])
            ++ ([0] : List ℕ).map
              (fun i => ([[0], [1]] : List (List ℤ)).getD i [])
      ∧ (eliteIdx [[0], [1]] 1 [0] (fun _ _ => []) (fun _ _ => 0) (fun _ => 1)
          []).length = 1
      ∧ (eliteIdx [[0], [1]] 1 [0] (fun _ _ => []) (fun _ _ => 0) (fun _ => 1)
          []).Nodup
      ∧ (∀ i ∈ eliteIdx [[0], [1]] 1 [0] (fun _ _ => []) (fun _ _ => 0)
          (fun _ => 1) [], i < ([[0], [1]] : List (List ℤ)).length)
      ∧ List.Pairwise
          (rankLT (fitness [[0], [1]] [0] (fun _ _ => []) (fun _ _ => 0)
            (fun _ => 1) []))
          (eliteIdx [[0], [1]] 1 [0] (fun _ _ => []) (fun _ _ => 0)
            (fun _ => 1) [])
      ∧ (∀ i ∈ eliteIdx [[0], [1]] 1 [0] (fun _ _ => []) (fun _ _ => 0)
            (fun _ => 1) [],
          ∀ j < ([[0], [1]] : List (List ℤ)).length,
            j ∉ eliteIdx [[0], [1]] 1 [0] (fun _ _ => []) (fun _ _ => 0)
              (fun _ => 1) [] →
            fitness [[0], [1]] [0] (fun _ _ => []) (fun _ _ => 0) (fun _ => 1)
                [] j
              ≤ fitness [[0], [1]] [0] (fun _ _ => []) (fun _ _ => 0)
                (fun _ => 1) [] i)) :=
  ⟨⟨by decide, by decide, by decide⟩,
    C3_selection_mating_pool [[0], [1]] 1 [0] (fun _ _ => []) (fun _ _ => 0)
      (fun _ => 1) [] [0] (by decide) (by decide) (by decide)⟩

/-! ### C5: allele bounds -/

theorem pyRound_nonneg (q : ℚ) (h : 0 ≤ q) : 0 ≤ pyRound q := by
  unfold pyRound
  have h0 : (0 : ℤ) ≤ ⌊q⌋ := Int.le_floor.mpr (by exact_mod_cast h)
  split
  · split <;> omega
  · rw [round_eq]
    exact Int.le_floor.mpr (by push_cast; linarith)

theorem pyRound_le (q : ℚ) (z : ℤ) (h : q < z) : pyRound q ≤ z := by
  unfold pyRound
  split
  · next hfr =>
      have hq : (⌊q⌋ : ℚ) = q - 1 / 2 := by
        have hf := Int.floor_add_fract q
        rw [hfr] at hf
        linarith
      have hcast : (⌊q⌋ : ℚ) < (z : ℚ) := by
        rw [hq]
        linarith
      have hlt : ⌊q⌋ < z := by exact_mod_cast hcast
      have hlt' : ⌊q⌋ + 1 ≤ z := by
        by_contra hc
        push_neg at hc
        have : z ≤ ⌊q⌋ := by omega
        have : (z : ℚ) ≤ (⌊q⌋ : ℚ) := by exact_mod_cast this
        rw [hq] at this
        linarith
      split <;> omega
  · rw [round_eq]
    have : ⌊q + 1 / 2⌋ < z + 1 := Int.floor_lt.mpr (by push_cast; linarith)
    omega

theorem create_individual_length (keys : List ℕ) (frags_count : ℕ → ℕ)
    (r : ℕ → ℚ) : (create_individual keys frags_count r).length = keys.length := by
  simp [create_individual, List.enum_length]

theorem create_individual_getD (keys : List ℕ) (frags_count : ℕ → ℕ)
    (r : ℕ → ℚ) (j : ℕ) (hj : j < keys.length) :
    (create_individual keys frags_count r).getD j 0
      = pyRound (r j * (frags_count (keys.getD j 0) : ℚ)) := by
  have hj' : j < (create_individual keys frags_count r).length := by
    rw [create_individual_length]
    exact hj
  rw [List.getD_eq_getElem _ _ hj', List.getD_eq_getElem _ _ hj]
  simp only [create_individual, List.getElem_map, List.getElem_enum]

/-- C5: every allele of every row of `initial_population` lies in
`[0, N_key]` for its key (the `round(random() * N_key)` draw cannot leave
that interval), and `mutate` writes only values of
`choice(range(N_key))`, hence in `[0, N_key - 1]`, at the positions it
touches. -/
theorem C5_allele_bounds (popSize : ℕ) (keys : List ℕ) (frags_count : ℕ → ℕ)
    (rs : ℕ → ℕ → ℚ) (individual : List ℤ) (positions : List ℕ) (c : ℕ → ℕ)
    (hr : ∀ i j, 0 ≤ rs i j ∧ rs i j < 1)
    (hsamp : SampleOK positions individual.length positions.length)
    (hN : ∀ i ∈ positions, 1 ≤ frags_count (keys.getD i 0)) :
    (∀ row ∈ initial_population popSize keys frags_count rs,
      row.length = keys.length
      ∧ ∀ j < keys.length,
          0 ≤ row.getD j 0
          ∧ row.getD j 0 ≤ (frags_count (keys.getD j 0) : ℤ))
    ∧ (∀ i ∈ positions,
        0 ≤ (mutate individual positions c frags_count keys).getD i 0
        ∧ (mutate individual positions c frags_count keys).getD i 0
            ≤ (frags_count (keys.getD i 0) : ℤ) - 1) := by
  constructor
  · intro row hrow
    obtain ⟨i, _, rfl⟩ := List.mem_map.mp hrow
    refine ⟨create_individual_length keys frags_count (rs i), ?_⟩
    intro j hj
    rw [create_individual_getD keys frags_count (rs i) j hj]
    have hq0 : 0 ≤ rs i j * (frags_count (keys.getD j 0) : ℚ) :=
      mul_nonneg (hr i j).1 (Nat.cast_nonneg _)
    refine ⟨pyRound_nonneg _ hq0, ?_⟩
    rcases Nat.eq_zero_or_pos (frags_count (keys.getD j 0)) with h0 | hpos
    · have hz : rs i j * ((frags_count (keys.getD j 0) : ℕ) : ℚ) = 0 := by
        rw [h0]
        simp
      rw [hz, h0]
      have hpz : pyRound 0 = 0 := by
        rw [pyRound, Int.fract_zero]
        norm_num
      rw [hpz]
      simp
    · refine pyRound_le _ _ ?_
      have hcast : (0 : ℚ) < (frags_count (keys.getD j 0) : ℚ) := by
        exact_mod_cast hpos
      calc rs i j * (frags_count (keys.getD j 0) : ℚ)
          < 1 * (frags_count (keys.getD j 0) : ℚ) := by
            exact mul_lt_mul_of_pos_right (hr i j).2 hcast
        _ = ((frags_count (keys.getD j 0) : ℤ) : ℚ) := by push_cast; ring
  · intro i hi
    have hval : (mutate individual positions c frags_count keys).getD i 0
        = ((c i % frags_count (keys.getD i 0) : ℕ) : ℤ) :=
      foldl_set_getD_mem positions individual _ i hsamp.1 hi (hsamp.2.1 i hi)
    rw [hval]
    have hNi := hN i hi
    have hmod : c i % frags_count (keys.getD i 0) < frags_count (keys.getD i 0) :=
      Nat.mod_lt _ (by omega)
    constructor
    · exact Int.natCast_nonneg _
    · omega

/-- C5 witness. -/
theorem C5_witness :
    ((∀ i j : ℕ, 0 ≤ (0 : ℚ) ∧ (0 : ℚ) < 1)
      ∧ SampleOK [0] ([9] : List ℤ).length ([0] : List ℕ).length
      ∧ (∀ i ∈ ([0] : List ℕ), 1 ≤ (1 : ℕ)))
    ∧ ((∀ row ∈ initial_population 1 [0] (fun _ => 1) (fun _ _ => 0),
        row.length = ([0] : List ℕ).length
        ∧ ∀ j < ([0] : List ℕ).length,
            0 ≤ row.getD j 0 ∧ row.getD j 0 ≤ ((1 : ℕ) : ℤ))
      ∧ (∀ i ∈ ([0] : List ℕ),
          0 ≤ (mutate [9] [0] (fun _ => 0) (fun _ => 1) [0]).getD i 0
          ∧ (mutate [9] [0] (fun _ => 0) (fun _ => 1) [0]).getD i 0
              ≤ ((1 : ℕ) : ℤ) - 1)) :=
  ⟨⟨fun _ _ => ⟨le_refl 0, by norm_num⟩, by decide, by decide⟩,
    C5_allele_bounds 1 [0] (fun _ => 1) (fun _ _ => 0) [9] [0] (fun _ => 0)
      (fun _ _ => ⟨le_refl 0, by norm_num⟩) (by decide) (by decide)⟩

/-! ### C1: energy -/

theorem foldl_dictUpd_not_mem (l : List (ℕ × ℤ)) (d : ℕ → Option ℤ) (k : ℕ)
    (h : k ∉ l.map Prod.fst) :
    (l.foldl (fun d kv => dictUpd d kv.1 kv.2) d) k = d k := by
  induction l generalizing d with
  | nil => rfl
  | cons kv rest ih =>
      simp only [List.map_cons, List.mem_cons, not_or] at h
      rw [List.foldl_cons, ih _ h.2]
      simp [dictUpd, h.1]

theorem foldl_dictUpd_mem (l : List (ℕ × ℤ)) (d : ℕ → Option ℤ) (k : ℕ)
    (v : ℤ) (hnd : (l.map Prod.fst).Nodup) (hmem : (k, v) ∈ l) :
    (l.foldl (fun d kv => dictUpd d kv.1 kv.2) d) k = some v := by
  induction l generalizing d with
  | nil => simp at hmem
  | cons kv rest ih =>
      simp only [List.map_cons, List.nodup_cons] at hnd
      rw [List.foldl_cons]
      rcases List.mem_cons.mp hmem with rfl | hmem'
      · rw [foldl_dictUpd_not_mem rest _ k hnd.1]
        simp [dictUpd]
      · exact ih _ hnd.2 hmem'

theorem selFrag_getD (keys : List ℕ) (ind : List ℤ) (hnd : keys.Nodup)
    (hlen : keys.length = ind.length) (j : ℕ) (hj : j < keys.length) :
    selFrag keys ind (keys.getD j 0) = ind.getD j 0 := by
  have hjz : j < (keys.zip ind).length := by
    rw [List.length_zip]
    omega
  have hmem : (keys.getD j 0, ind.getD j 0) ∈ keys.zip ind := by
    rw [List.getD_eq_getElem _ _ hj, List.getD_eq_getElem _ _ (by omega)]
    have hz : (keys.zip ind)[j] = (keys[j], ind[j]) := List.getElem_zip
    rw [← hz]
    exact List.getElem_mem hjz
  have hfst : (keys.zip ind).map Prod.fst = keys :=
    List.map_fst_zip keys ind (le_of_eq hlen)
  unfold selFrag dictZip
  rw [foldl_dictUpd_mem _ _ _ _ (by rw [hfst]; exact hnd) hmem]
  rfl

theorem selFrag_eq_alleleSpec (keys : List ℕ) (ind : List ℤ) (k : ℕ)
    (hnd : keys.Nodup) (hlen : keys.length = ind.length) (hk : k ∈ keys) :
    selFrag keys ind k = alleleSpec ind keys k := by
  have hj : keys.indexOf k < keys.length := List.indexOf_lt_length.mpr hk
  have hkey : keys.getD (keys.indexOf k) 0 = k := by
    rw [List.getD_eq_getElem _ _ hj]
    exact List.getElem_indexOf hj
  calc selFrag keys ind k
      = selFrag keys ind (keys.getD (keys.indexOf k) 0) := by rw [hkey]
    _ = ind.getD (keys.indexOf k) 0 := selFrag_getD keys ind hnd hlen _ hj
    _ = alleleSpec ind keys k := rfl

theorem map_getD_range (l : List ℕ) :
    (List.range l.length).map (fun j => l.getD j 0) = l := by
  apply List.ext_getElem
  · simp
  · intro n h1 h2
    simp only [List.getElem_map, List.getElem_range]
    rw [List.getD_eq_getElem _ _ h2]

theorem term_count_eq_activeCountSpec (ind : List ℤ) (keys : List ℕ)
    (frags_count : ℕ → ℕ) (hnd : keys.Nodup) (hlen : keys.length = ind.length) :
    term_count ind keys frags_count = activeCountSpec ind keys frags_count := by
  unfold term_count activeCountSpec
  rw [← List.countP_eq_length_filter]
  have hstep : keys.countP
      (fun k => decide (selFrag keys ind k < (frags_count k : ℤ)))
      = ((List.range keys.length).map (fun j => keys.getD j 0)).countP
        (fun k => decide (selFrag keys ind k < (frags_count k : ℤ))) := by
    rw [map_getD_range]
  rw [hstep, List.countP_map]
  apply List.countP_congr
  intro j hj
  have hj' : j < keys.length := List.mem_range.mp hj
  simp only [Function.comp_apply, decide_eq_true_eq]
  rw [selFrag_getD keys ind hnd hlen j hj']

/-- C1: for a well-formed individual (distinct keys, one in-bounds allele
per key, graph edges joining keys), `energy` returns exactly the sum over
graph edges with two active endpoints and over their recorded
aligned-offset pairs of the external scorer's value on the two residues
at those offsets, minus the number of keys whose allele is active. -/
theorem C1_energy_eq_spec (individual : List ℤ) (keys : List ℕ)
    (select : ℕ → ℤ → List ℕ) (score : ℕ → ℕ → ℚ) (frags_count : ℕ → ℕ)
    (G : List (ℕ × ℕ × List (ℕ × ℕ)))
    (hnd : keys.Nodup) (hlen : keys.length = individual.length)
    (hedge : ∀ e ∈ G, e.1 ∈ keys ∧ e.2.1 ∈ keys)
    (hbound : ∀ j < keys.length,
        0 ≤ individual.getD j 0
        ∧ individual.getD j 0 ≤ (frags_count (keys.getD j 0) : ℤ)) :
    energy individual keys select score frags_count G
      = energySpec individual keys select score frags_count G := by
  unfold energy energySpec compare_aa
  rw [term_count_eq_activeCountSpec individual keys frags_count hnd hlen]
  congr 2
  apply List.map_congr_left
  intro e he
  rw [selFrag_eq_alleleSpec keys individual e.1 hnd hlen (hedge e he).1,
    selFrag_eq_alleleSpec keys individual e.2.1 hnd hlen (hedge e he).2]

/-- C1 witness. -/
theorem C1_witness :
    (([0, 1] : List ℕ).Nodup
      ∧ ([0, 1] : List ℕ).length = ([0, 2] : List ℤ).length
      ∧ (∀ e ∈ ([(0, 1, [(0, 0)])] : List (ℕ × ℕ × List (ℕ × ℕ))),
          e.1 ∈ ([0, 1] : List ℕ) ∧ e.2.1 ∈ ([0, 1] : List ℕ))
      ∧ (∀ j < ([0, 1] : List ℕ).length,
          0 ≤ ([0, 2] : List ℤ).getD j 0
          ∧ ([0, 2] : List ℤ).getD j 0 ≤ ((2 : ℕ) : ℤ)))
    ∧ energy [0, 2] [0, 1] (fun _ _ => [0]) (fun _ _ => 1) (fun _ => 2)
        [(0, 1, [(0, 0)])]
      = energySpec [0, 2] [0, 1] (fun _ _ => [0]) (fun _ _ => 1) (fun _ => 2)
        [(0, 1, [(0, 0)])] :=
  ⟨⟨by decide, by decide, by decide, by decide⟩,
    C1_energy_eq_spec [0, 2] [0, 1] (fun _ _ => [0]) (fun _ _ => 1)
      (fun _ => 2) [(0, 1, [(0, 0)])] (by decide) (by decide) (by decide)
      (by decide)⟩

end GA
